import Mathlib

/-!
Shallow embedding of `lsh.py` (pylsh): locality-sensitive hashing with
MinHash / random-projection signatures and a banding hash table.

Modelling conventions:
* Python objects are immutable Lean structures; mutation becomes explicit
  state passing (a method that mutates returns the updated value).
* `mmh3.hash(str(pos), k)` is abstracted as a parameter `mmh : Nat → Nat → Int`
  (`str` is injective on naturals, so the position is passed directly).
* Python's builtin `hash(tuple(band))` is abstracted as a parameter
  `hk : List σ → Int` over signature-element type `σ`.
* Python 2 `/` on nonnegative ints is floor division, i.e. `Nat.div`;
  division by zero raises `ZeroDivisionError`, modelled as `Option.none`.
* Python floats are modelled as exact numbers: rationals where the code only
  adds/multiplies/compares (projection hashing, Jaccard), reals where a
  square root occurs (cosine similarity).  `float("inf")` used by MinHash
  becomes `⊤` in `WithTop ℤ`.
* A fallible operation (a Python call that can raise) returns `Option`.
-/

/-- Structure `LshObject` from `lsh.py`: identity, feature vector, and a signature that
is `None` until `generate_signature` runs.  The global monotonic id counter is
not modelled; `id` is simply a field, and (as in the Python `__eq__`/`__hash__`)
object identity is the `id` field alone. -/
structure LshObject (φ σ : Type) where
  id : Nat
  feature : φ
  signature : Option (List σ)
deriving Repr, DecidableEq

/-- Deduplicate a list of objects by the `id` field, keeping the first
occurrence of each id.  This models Python's `list(set(result))` in
`BandingHashTable.get`: `LshObject.__eq__`/`__hash__` compare by `id`, so the
set collapses entries with equal ids; the iteration order of a Python set is
unspecified, and this model fixes first-occurrence order. -/
def dedupById {φ σ : Type} : List (LshObject φ σ) → List (LshObject φ σ)
  | [] => []
  | x :: xs => x :: dedupById (xs.filter (fun y => y.id ≠ x.id))
termination_by l => l.length
decreasing_by
  simp only [List.length_cons]
  exact Nat.lt_succ_of_le (List.length_filter_le _ _)

/-- A band of the banding hash table: Python `dict` keyed by the band hash,
modelled as an association list from key to bucket. -/
def Band (φ σ : Type) : Type := List (Int × List (LshObject φ σ))

/-- Lookup in one band: `hash_result in self.hash_tables[index]` plus the
subsequent `self.hash_tables[index][hash_result]`. -/
def bandGet {φ σ : Type} (k : Int) : Band φ σ → Option (List (LshObject φ σ))
  | [] => none
  | (k', bucket) :: rest => if k' = k then some bucket else bandGet k rest

/-- Insertion into one band: `if hash_result not in table: table[hash_result] = []`
followed by `table[hash_result].append(lsh_object)`. -/
def bandPut {φ σ : Type} (k : Int) (o : LshObject φ σ) : Band φ σ → Band φ σ
  | [] => [(k, [o])]
  | (k', bucket) :: rest =>
    if k' = k then (k', bucket ++ [o]) :: rest
    else (k', bucket) :: bandPut k o rest

/-- State of `BandingHashTable`: `b` bands, each an association list, plus the
configuration read at construction. -/
structure BandingHashTable (φ σ : Type) where
  sig_dim : Nat
  b : Nat
  r : Nat
  hash_tables : List (Band φ σ)

namespace BandingHashTable

/-- Constructor `BandingHashTable.__init__`: stores `sig_dim`, `b`, computes
`r = sig_dim / b` by Python 2 integer (floor) division, and creates `b`
empty dicts.  There is no divisibility check; the only failure is
`ZeroDivisionError` when `b = 0`, modelled as `none`. -/
def make (φ σ : Type) (sig_dim b : Nat) : Option (BandingHashTable φ σ) :=
  if b = 0 then none
  else some ⟨sig_dim, b, sig_dim / b, List.replicate b []⟩

/-- Method `_get_signature_segments`: `[signature[r*i : r*(i+1)] for i in xrange(b)]`.
A Python slice `l[a:a+r]` is `(l.drop a).take r` (with clamping). -/
def get_signature_segments {φ σ : Type} (t : BandingHashTable φ σ) (signature : List σ) :
    List (List σ) :=
  (List.range t.b).map (fun i => (signature.drop (t.r * i)).take t.r)

/-- The loop body of `put`: walk the segment list and the band list in
parallel (`for index, band in enumerate(bands)` with
`self.hash_tables[index]`), inserting the object into each band under the
hash of its segment. -/
def putLoop {φ σ : Type} (hk : List σ → Int) (o : LshObject φ σ) :
    List (List σ) → List (Band φ σ) → List (Band φ σ)
  | [], ts => ts
  | _, [] => []
  | band :: bands, tbl :: ts => bandPut (hk band) o tbl :: putLoop hk o bands ts

/-- Method `put(lsh_object)`: segments the object's signature and appends the object
to the matching bucket of every band.  Reading `lsh_object.signature` when it
is unset (`None`) raises in Python (slicing `None`); modelled as `none`. -/
def put {φ σ : Type} (hk : List σ → Int) (t : BandingHashTable φ σ)
    (o : LshObject φ σ) : Option (BandingHashTable φ σ) :=
  match o.signature with
  | none => none
  | some sig =>
    some { t with hash_tables := putLoop hk o (t.get_signature_segments sig) t.hash_tables }

/-- The loop body of `get`: collect (`result.extend`) the bucket contents of
every band whose key is present. -/
def getLoop {φ σ : Type} (hk : List σ → Int) :
    List (List σ) → List (Band φ σ) → List (LshObject φ σ)
  | [], _ => []
  | _, [] => []
  | band :: bands, tbl :: ts =>
    (match bandGet (hk band) tbl with
     | some bucket => bucket
     | none => []) ++ getLoop hk bands ts

/-- Method `get(signature)`: same segmentation as `put`, union of the matching
buckets, then `list(set(result))` (deduplication by object id). -/
def get {φ σ : Type} (hk : List σ → Int) (t : BandingHashTable φ σ)
    (signature : List σ) : List (LshObject φ σ) :=
  dedupById (getLoop hk (t.get_signature_segments signature) t.hash_tables)

end BandingHashTable

/-- Class `MinHasher` from `lsh.py`: `feat_dim` is stored but never consulted by
`hash`. -/
structure MinHasher where
  feat_dim : Nat
  sig_dim : Nat
deriving Repr

namespace MinHasher

/-- Method `MinHasher._hash(feature, k)`: murmur-hash every position whose feature
value equals 1 with seed `k`; return the minimum, or `float("inf")` (here `⊤`)
when the feature has no 1-entries.  Python's `min(list)` is a left fold of
binary `min` over the list. -/
def hashAt (mmh : Nat → Nat → Int) (feature : List Int) (k : Nat) : WithTop Int :=
  let hash_values := (feature.enum.filter (fun p => p.2 == 1)).map (fun p => mmh p.1 k)
  match hash_values with
  | [] => ⊤
  | v :: vs => ↑(vs.foldl min v)

/-- Method `MinHasher.hash(feature)`: `[self._hash(feature, k) for k in xrange(sig_dim)]`.
No dimension check of any kind is performed. -/
def hash (mmh : Nat → Nat → Int) (h : MinHasher) (feature : List Int) :
    List (WithTop Int) :=
  (List.range h.sig_dim).map (hashAt mmh feature)

end MinHasher

/-- Dot product of two equal-length vectors over ℚ (`np.dot` of a plane row
with the feature vector). -/
def dotQ (xs ys : List ℚ) : ℚ := (List.zipWith (· * ·) xs ys).sum

/-- Class `RandomProjectionHasher`: the random planes (`randn(sig_dim, feat_dim)`)
are drawn once at construction; the embedding takes the drawn matrix as data,
row per hyperplane. -/
structure RandomProjectionHasher where
  feat_dim : Nat
  sig_dim : Nat
  planes : List (List ℚ)

namespace RandomProjectionHasher

/-- Method `RandomProjectionHasher.hash(feature)`:
`bitarray([val > 0 for val in np.dot(self.planes, feature)])` — one bit per
plane, set iff the dot product is strictly positive.  `np.dot` of a
`sig_dim × feat_dim` matrix with a vector raises a shape-mismatch `ValueError`
unless the vector's length is `feat_dim`; modelled as `none`. -/
def hash (h : RandomProjectionHasher) (feature : List ℚ) : Option (List Bool) :=
  if feature.length = h.feat_dim then
    some (h.planes.map (fun p => decide (0 < dotQ p feature)))
  else none

end RandomProjectionHasher

/-- Dot product over ℝ (`np.dot vec1 vec2`), truncating at the shorter list;
the cosine claims only use it at equal lengths. -/
def dotR (xs ys : List ℝ) : ℝ := (List.zipWith (· * ·) xs ys).sum

/-- Sum of squares of a real vector. -/
def sumSq (xs : List ℝ) : ℝ := (xs.map (fun x => x ^ 2)).sum

/-- Function `numpy.linalg.norm`: the Euclidean 2-norm. -/
noncomputable def normR (xs : List ℝ) : ℝ := Real.sqrt (sumSq xs)

namespace CosineSimilarity

/-- Method `CosineSimilarity.compute_similarity`: 0 when either vector has zero
norm, else `np.dot(vec1, vec2) / (norm(vec1) * norm(vec2))`. -/
noncomputable def compute_similarity (vec1 vec2 : List ℝ) : ℝ :=
  if normR vec1 = 0 ∨ normR vec2 = 0 then 0
  else dotR vec1 vec2 / (normR vec1 * normR vec2)

end CosineSimilarity

namespace JaccardSimilarity

/-- Method `JaccardSimilarity.compute_similarity`:
`sum(np.bitwise_and) / sum(np.bitwise_or)` as an exact rational
(`1.0 * x / y` in the source), 0 when the union is empty.  `np.bitwise_or`
on equal-length vectors is the positionwise `Int.lor`/`Int.land`. -/
def compute_similarity (vec1 vec2 : List Int) : ℚ :=
  let union : Int := (List.zipWith Int.lor vec1 vec2).sum
  if union = 0 then 0
  else ((List.zipWith Int.land vec1 vec2).sum : ℚ) / (union : ℚ)

end JaccardSimilarity

/-- Class `Lsh` from `lsh.py`.  The hasher selected at construction
(`MinHasher` for Jaccard, `RandomProjectionHasher` otherwise) is abstracted
to the deterministic signature function it denotes, and the builtin `hash`
over band tuples to `hk`. -/
structure Lsh (φ σ : Type) where
  feat_dim : Nat
  sig_dim : Nat
  hasher : φ → List σ
  hk : List σ → Int
  banding_hashtable : BandingHashTable φ σ

namespace Lsh

/-- Constructor `Lsh.__init__`: stores the dimensions, picks the hasher, and builds
`BandingHashTable(sig_dim, b)`; fails only if that construction fails. -/
def make (φ σ : Type) (feat_dim sig_dim : Nat) (hasher : φ → List σ)
    (hk : List σ → Int) (b : Nat) : Option (Lsh φ σ) :=
  (BandingHashTable.make φ σ sig_dim b).map
    (fun t => ⟨feat_dim, sig_dim, hasher, hk, t⟩)

/-- Method `generate_signature(lsh_object)`: sets
`lsh_object.signature = self.hasher.hash(lsh_object.feature)` — an in-place
overwrite, modelled by returning the updated object. -/
def generate_signature {φ σ : Type} (L : Lsh φ σ) (o : LshObject φ σ) :
    LshObject φ σ :=
  { o with signature := some (L.hasher o.feature) }

/-- Method `index(lsh_object)`: generate the signature, then `put` the object.
Returns the updated object and index state.  The `none` branch of `put` is
unreachable here: the signature was just set. -/
def index {φ σ : Type} (L : Lsh φ σ) (o : LshObject φ σ) :
    LshObject φ σ × Lsh φ σ :=
  let o' := L.generate_signature o
  match BandingHashTable.put L.hk L.banding_hashtable o' with
  | some t => (o', { L with banding_hashtable := t })
  | none => (o', L)

/-- Method `retrieve(lsh_object)`: regenerate the query's signature (an overwrite
visible to the caller), then `get` with it.  After `generate_signature` the
signature is exactly `hasher o.feature`, which is what reaches `get`.
The table is only read, never written, so no table state is returned. -/
def retrieve {φ σ : Type} (L : Lsh φ σ) (o : LshObject φ σ) :
    LshObject φ σ × List (LshObject φ σ) :=
  let o' := L.generate_signature o
  (o', BandingHashTable.get L.hk L.banding_hashtable (L.hasher o.feature))

end Lsh

section DedupLemmas

variable {φ σ : Type}

theorem dedupById_nil : dedupById ([] : List (LshObject φ σ)) = [] := by
  simp [dedupById]

theorem dedupById_cons (x : LshObject φ σ) (xs : List (LshObject φ σ)) :
    dedupById (x :: xs) = x :: dedupById (xs.filter (fun y => y.id ≠ x.id)) := by
  simp [dedupById]

theorem mem_of_mem_dedupById {l : List (LshObject φ σ)} :
    ∀ x ∈ dedupById l, x ∈ l := by
  induction l using dedupById.induct with
  | case1 => simp [dedupById_nil]
  | case2 a as ih =>
    intro x hx
    rw [dedupById_cons] at hx
    rcases List.mem_cons.mp hx with h | h
    · exact h ▸ List.mem_cons_self _ _
    · exact List.mem_cons_of_mem _ (List.mem_of_mem_filter (ih x h))

theorem exists_mem_dedupById_of_mem {l : List (LshObject φ σ)} :
    ∀ y ∈ l, ∃ x ∈ dedupById l, x.id = y.id := by
  induction l using dedupById.induct with
  | case1 => simp
  | case2 a as ih =>
    intro y hy
    rw [dedupById_cons]
    rcases List.mem_cons.mp hy with h | h
    · exact ⟨a, List.mem_cons_self _ _, by rw [h]⟩
    · by_cases hid : y.id = a.id
      · exact ⟨a, List.mem_cons_self _ _, hid.symm⟩
      · have hyf : y ∈ as.filter (fun z => z.id ≠ a.id) :=
          List.mem_filter.mpr ⟨h, by simpa using hid⟩
        obtain ⟨x, hx, hxy⟩ := ih y hyf
        exact ⟨x, List.mem_cons_of_mem _ hx, hxy⟩

theorem pairwise_dedupById (l : List (LshObject φ σ)) :
    (dedupById l).Pairwise (fun a c => a.id ≠ c.id) := by
  induction l using dedupById.induct with
  | case1 => simp [dedupById_nil]
  | case2 a as ih =>
    rw [dedupById_cons]
    refine List.pairwise_cons.mpr ⟨?_, ih⟩
    intro z hz
    have hzf := mem_of_mem_dedupById z hz
    have := (List.mem_filter.mp hzf).2
    simp only [ne_eq, decide_not, Bool.not_eq_true', decide_eq_false_iff_not] at this
    exact fun h => this h.symm

end DedupLemmas

section BandLemmas

variable {φ σ : Type}

theorem bandGet_bandPut_self (k : Int) (o : LshObject φ σ) (band : Band φ σ) :
    bandGet k (bandPut k o band) = some ((bandGet k band).getD [] ++ [o]) := by
  induction band with
  | nil => simp [bandPut, bandGet]
  | cons kb rest ih =>
    obtain ⟨k', bucket⟩ := kb
    by_cases h : k' = k
    · simp [bandPut, bandGet, h]
    · simp [bandPut, bandGet, h, ih]

theorem length_putLoop (hk : List σ → Int) (o : LshObject φ σ)
    (segs : List (List σ)) (tbls : List (Band φ σ)) :
    (BandingHashTable.putLoop hk o segs tbls).length = tbls.length := by
  induction segs generalizing tbls with
  | nil => simp [BandingHashTable.putLoop]
  | cons s ss ih =>
    cases tbls with
    | nil => simp [BandingHashTable.putLoop]
    | cons t ts => simp [BandingHashTable.putLoop, ih]

theorem putLoop_getD (hk : List σ → Int) (o : LshObject φ σ)
    (segs : List (List σ)) (tbls : List (Band φ σ)) (i : Nat)
    (hi : i < tbls.length) :
    (BandingHashTable.putLoop hk o segs tbls).getD i [] =
      if i < segs.length then bandPut (hk (segs.getD i [])) o (tbls.getD i [])
      else tbls.getD i [] := by
  induction segs generalizing tbls i with
  | nil => simp [BandingHashTable.putLoop]
  | cons s ss ih =>
    cases tbls with
    | nil => simp at hi
    | cons t ts =>
      cases i with
      | zero => simp [BandingHashTable.putLoop]
      | succ j =>
        have hj : j < ts.length := by simpa using hi
        simp only [BandingHashTable.putLoop, List.getD_cons_succ, List.length_cons,
          Nat.succ_lt_succ_iff]
        exact ih ts j hj

theorem getLoop_complete (hk : List σ → Int)
    (segs : List (List σ)) (tbls : List (Band φ σ)) (i : Nat)
    (hi₁ : i < segs.length) (hi₂ : i < tbls.length) (bucket : List (LshObject φ σ))
    (hb : bandGet (hk (segs.getD i [])) (tbls.getD i []) = some bucket) :
    ∀ y ∈ bucket, y ∈ BandingHashTable.getLoop hk segs tbls := by
  induction segs generalizing tbls i with
  | nil => simp at hi₁
  | cons s ss ih =>
    cases tbls with
    | nil => simp at hi₂
    | cons t ts =>
      intro y hy
      cases i with
      | zero =>
        simp only [List.getD_cons_zero] at hb
        simp [BandingHashTable.getLoop, hb, hy]
      | succ j =>
        have hj₁ : j < ss.length := by simpa using hi₁
        have hj₂ : j < ts.length := by simpa using hi₂
        simp only [List.getD_cons_succ] at hb
        have := ih ts j hj₁ hj₂ hb y hy
        simp only [BandingHashTable.getLoop, List.mem_append]
        right
        exact this

theorem getLoop_sound (hk : List σ → Int)
    (segs : List (List σ)) (tbls : List (Band φ σ)) :
    ∀ x ∈ BandingHashTable.getLoop hk segs tbls,
      ∃ i, i < segs.length ∧ i < tbls.length ∧ ∃ bucket,
        bandGet (hk (segs.getD i [])) (tbls.getD i []) = some bucket ∧ x ∈ bucket := by
  induction segs generalizing tbls with
  | nil => simp [BandingHashTable.getLoop]
  | cons s ss ih =>
    cases tbls with
    | nil => simp [BandingHashTable.getLoop]
    | cons t ts =>
      intro x hx
      simp only [BandingHashTable.getLoop, List.mem_append] at hx
      rcases hx with hx | hx
      · rcases hg : bandGet (hk s) t with _ | bucket
        · rw [hg] at hx; simp at hx
        · rw [hg] at hx
          exact ⟨0, by simp, by simp, bucket, by simpa using hg, hx⟩
      · obtain ⟨j, hj₁, hj₂, bucket, hb, hxb⟩ := ih ts x hx
        exact ⟨j + 1, by simpa using hj₁, by simpa using hj₂, bucket, by simpa using hb, hxb⟩

theorem getLoop_eq_nil (hk : List σ → Int)
    (segs : List (List σ)) (tbls : List (Band φ σ))
    (h : ∀ i, i < segs.length → i < tbls.length →
      bandGet (hk (segs.getD i [])) (tbls.getD i []) = none) :
    BandingHashTable.getLoop hk segs tbls = [] := by
  induction segs generalizing tbls with
  | nil => simp [BandingHashTable.getLoop]
  | cons s ss ih =>
    cases tbls with
    | nil => simp [BandingHashTable.getLoop]
    | cons t ts =>
      have h0 := h 0 (by simp) (by simp)
      simp only [List.getD_cons_zero] at h0
      have hrest : BandingHashTable.getLoop hk ss ts = [] := by
        refine ih ts (fun i hi₁ hi₂ => ?_)
        have := h (i + 1) (by simpa using hi₁) (by simpa using hi₂)
        simpa using this
      simp [BandingHashTable.getLoop, h0, hrest]

end BandLemmas

section TableLemmas

variable {φ σ : Type}

theorem length_get_signature_segments (t : BandingHashTable φ σ) (sig : List σ) :
    (t.get_signature_segments sig).length = t.b := by
  simp [BandingHashTable.get_signature_segments]

/-- Unfolding of `Lsh.index`, componentwise: `put` always succeeds there
because the signature was set by `generate_signature` on the line before, so
only `hash_tables` changes and the returned object is the signed one. -/
theorem Lsh.index_unfold (L : Lsh φ σ) (o : LshObject φ σ) :
    (L.index o).1 = L.generate_signature o
    ∧ (L.index o).2.feat_dim = L.feat_dim
    ∧ (L.index o).2.sig_dim = L.sig_dim
    ∧ (L.index o).2.hasher = L.hasher
    ∧ (L.index o).2.hk = L.hk
    ∧ (L.index o).2.banding_hashtable.sig_dim = L.banding_hashtable.sig_dim
    ∧ (L.index o).2.banding_hashtable.b = L.banding_hashtable.b
    ∧ (L.index o).2.banding_hashtable.r = L.banding_hashtable.r
    ∧ (L.index o).2.banding_hashtable.hash_tables =
        (BandingHashTable.putLoop L.hk (L.generate_signature o)
          (L.banding_hashtable.get_signature_segments (L.hasher o.feature))
          L.banding_hashtable.hash_tables) :=
  ⟨rfl, rfl, rfl, rfl, rfl, rfl, rfl, rfl, rfl⟩

/-- After a `putLoop` insertion of `o`, a `get` with the same signature finds
an object with `o`'s id (via band 0). -/
theorem mem_get_putLoop (hk : List σ → Int) (t : BandingHashTable φ σ)
    (o : LshObject φ σ) (sig : List σ)
    (hb : 0 < t.b) (hlen : t.hash_tables.length = t.b) :
    ∃ x ∈ BandingHashTable.get hk
      { t with hash_tables := (BandingHashTable.putLoop hk o
          (t.get_signature_segments sig) t.hash_tables) } sig,
      x.id = o.id := by
  have h0s : 0 < (t.get_signature_segments sig).length := by
    rw [length_get_signature_segments]; exact hb
  have h0t : 0 < (BandingHashTable.putLoop hk o
      (t.get_signature_segments sig) t.hash_tables).length := by
    rw [length_putLoop, hlen]; exact hb
  have hgd : (BandingHashTable.putLoop hk o
      (t.get_signature_segments sig) t.hash_tables).getD 0 [] =
      bandPut (hk ((t.get_signature_segments sig).getD 0 [])) o
        (t.hash_tables.getD 0 []) := by
    rw [putLoop_getD hk o _ _ 0 (by rw [hlen]; exact hb), if_pos h0s]
  have hbg : bandGet (hk ((t.get_signature_segments sig).getD 0 []))
      ((BandingHashTable.putLoop hk o
        (t.get_signature_segments sig) t.hash_tables).getD 0 []) =
      some ((bandGet (hk ((t.get_signature_segments sig).getD 0 []))
        (t.hash_tables.getD 0 [])).getD [] ++ [o]) := by
    rw [hgd]
    exact bandGet_bandPut_self _ o _
  have homem := getLoop_complete hk _ _ 0 h0s h0t _ hbg o (by simp)
  exact exists_mem_dedupById_of_mem o homem

/-- Two `putLoop` insertions of the same object append it twice to the bucket
of every band keyed by its signature segment. -/
theorem putLoop_twice_bucket (hk : List σ → Int) (t : BandingHashTable φ σ)
    (o : LshObject φ σ) (sig : List σ)
    (hlen : t.hash_tables.length = t.b) (i : Nat) (hi : i < t.b) :
    bandGet (hk ((t.get_signature_segments sig).getD i []))
      ((BandingHashTable.putLoop hk o (t.get_signature_segments sig)
        (BandingHashTable.putLoop hk o (t.get_signature_segments sig)
          t.hash_tables)).getD i []) =
    some ((bandGet (hk ((t.get_signature_segments sig).getD i []))
        (t.hash_tables.getD i [])).getD [] ++ [o, o]) := by
  have his : i < (t.get_signature_segments sig).length := by
    rw [length_get_signature_segments]; exact hi
  have hit : i < t.hash_tables.length := by rw [hlen]; exact hi
  have hit1 : i < (BandingHashTable.putLoop hk o
      (t.get_signature_segments sig) t.hash_tables).length := by
    rw [length_putLoop]; exact hit
  rw [putLoop_getD hk o _ _ i hit1, if_pos his,
    putLoop_getD hk o _ _ i hit, if_pos his,
    bandGet_bandPut_self, bandGet_bandPut_self]
  simp

end TableLemmas

/-- C1: the spec requires construction with `sig_dim % b ≠ 0` to fail with
`InvalidBandConfiguration`, but `BandingHashTable.__init__` performs no
divisibility check: with `sig_dim = 5, b = 2` it succeeds, silently truncating
`r` to `5 / 2 = 2`, and an `Lsh` index is built on top of it. -/
theorem bandingHashTable_make_no_divisibility_check :
    BandingHashTable.make Unit Unit 5 2 =
      some ⟨5, 2, 2, List.replicate 2 []⟩
    ∧ 5 % 2 ≠ 0
    ∧ (Lsh.make Unit Unit 4 5 (fun _ => []) (fun _ => 0) 2).isSome = true := by
  refine ⟨rfl, by decide, rfl⟩

/-- C4: indexing an object and then retrieving with the same object returns a
candidate set containing (an entry with the id of) the object itself. -/
theorem lsh_index_retrieve_roundtrip {φ σ : Type} (L : Lsh φ σ)
    (o : LshObject φ σ)
    (hb : 0 < L.banding_hashtable.b)
    (_hdvd : L.banding_hashtable.b ∣ L.banding_hashtable.sig_dim)
    (hlen : L.banding_hashtable.hash_tables.length = L.banding_hashtable.b) :
    ∃ x ∈ ((L.index o).2.retrieve (L.index o).1).2, x.id = o.id :=
  mem_get_putLoop L.hk L.banding_hashtable (L.generate_signature o)
    (L.hasher o.feature) hb hlen

/-- C4 witness: a concrete index with one band over `σ = Int`. -/
theorem lsh_index_retrieve_roundtrip_witness :
    ∃ x ∈ (((⟨2, 2, fun _ => [0, 1], fun l => l.sum, ⟨2, 1, 2, [[]]⟩⟩ :
        Lsh Unit Int).index ⟨1, (), none⟩).2.retrieve
        ((⟨2, 2, fun _ => [0, 1], fun l => l.sum, ⟨2, 1, 2, [[]]⟩⟩ :
        Lsh Unit Int).index ⟨1, (), none⟩).1).2, x.id = 1 :=
  lsh_index_retrieve_roundtrip
    (⟨2, 2, fun _ => [0, 1], fun l => l.sum, ⟨2, 1, 2, [[]]⟩⟩ : Lsh Unit Int)
    ⟨1, (), none⟩ (by decide) (by decide) (by decide)

/-- C5: `BandingHashTable.get` returns the union of the buckets of the bands
whose band-key matches, deduplicated by object id: distinct ids in the
result, soundness (every result entry is in a matching bucket), completeness
up to id (every entry of a matching bucket is represented), and emptiness
when no band matches. -/
theorem banding_get_spec {φ σ : Type} (hk : List σ → Int)
    (t : BandingHashTable φ σ) (sig : List σ) :
    (BandingHashTable.get hk t sig).Pairwise (fun a c => a.id ≠ c.id)
    ∧ (∀ x ∈ BandingHashTable.get hk t sig,
        ∃ i, i < (t.get_signature_segments sig).length
          ∧ i < t.hash_tables.length
          ∧ ∃ bucket, bandGet (hk ((t.get_signature_segments sig).getD i []))
              (t.hash_tables.getD i []) = some bucket ∧ x ∈ bucket)
    ∧ (∀ i, i < (t.get_signature_segments sig).length →
        i < t.hash_tables.length →
        ∀ bucket, bandGet (hk ((t.get_signature_segments sig).getD i []))
          (t.hash_tables.getD i []) = some bucket →
        ∀ y ∈ bucket, ∃ x ∈ BandingHashTable.get hk t sig, x.id = y.id)
    ∧ ((∀ i, i < (t.get_signature_segments sig).length →
        i < t.hash_tables.length →
        bandGet (hk ((t.get_signature_segments sig).getD i []))
          (t.hash_tables.getD i []) = none) →
        BandingHashTable.get hk t sig = []) := by
  refine ⟨pairwise_dedupById _, ?_, ?_, ?_⟩
  · intro x hx
    exact getLoop_sound hk _ _ x (mem_of_mem_dedupById x hx)
  · intro i hi₁ hi₂ bucket hb y hy
    exact exists_mem_dedupById_of_mem y (getLoop_complete hk _ _ i hi₁ hi₂ bucket hb y hy)
  · intro hall
    show dedupById _ = []
    rw [getLoop_eq_nil hk _ _ hall, dedupById_nil]

/-- C5 witness: a two-band table where band 0 matches with a bucket holding
the same id twice and band 1 does not match. -/
theorem banding_get_spec_witness :
    ∃ x ∈ BandingHashTable.get (fun l => l.sum)
      (⟨2, 2, 1, [[(7, [⟨1, (), none⟩, ⟨1, (), none⟩])], []]⟩ :
        BandingHashTable Unit Int) [7, 3],
      x.id = 1 :=
  (banding_get_spec (fun l => l.sum)
      (⟨2, 2, 1, [[(7, [⟨1, (), none⟩, ⟨1, (), none⟩])], []]⟩ :
        BandingHashTable Unit Int) [7, 3]).2.2.1
    0 (by decide) (by decide)
    [⟨1, (), none⟩, ⟨1, (), none⟩] (by decide)
    ⟨1, (), none⟩ (by decide)

/-- C6: indexing the same object twice appends it twice to the matching
bucket of every band — `put` does not deduplicate on insert. -/
theorem lsh_index_twice_duplicates {φ σ : Type} (L : Lsh φ σ)
    (o : LshObject φ σ)
    (hlen : L.banding_hashtable.hash_tables.length = L.banding_hashtable.b)
    (i : Nat) (hi : i < L.banding_hashtable.b) :
    bandGet (L.hk ((L.banding_hashtable.get_signature_segments
        (L.hasher o.feature)).getD i []))
      ((((L.index o).2.index (L.index o).1).2.banding_hashtable.hash_tables).getD i [])
    = some ((bandGet (L.hk ((L.banding_hashtable.get_signature_segments
        (L.hasher o.feature)).getD i []))
        (L.banding_hashtable.hash_tables.getD i [])).getD []
        ++ [(L.index o).1, (L.index o).1]) :=
  putLoop_twice_bucket L.hk L.banding_hashtable (L.generate_signature o)
    (L.hasher o.feature) hlen i hi

/-- C6 witness: one band, starting from an empty table, the bucket ends up
holding the object exactly twice. -/
theorem lsh_index_twice_duplicates_witness :
    bandGet (((⟨2, 2, fun _ => [0, 1], fun l => l.sum, ⟨2, 1, 2, [[]]⟩⟩ :
        Lsh Unit Int)).hk
        ((((⟨2, 2, fun _ => [0, 1], fun l => l.sum, ⟨2, 1, 2, [[]]⟩⟩ :
          Lsh Unit Int)).banding_hashtable.get_signature_segments
          [0, 1]).getD 0 []))
      (((((⟨2, 2, fun _ => [0, 1], fun l => l.sum, ⟨2, 1, 2, [[]]⟩⟩ :
          Lsh Unit Int).index ⟨1, (), none⟩).2.index
          ((⟨2, 2, fun _ => [0, 1], fun l => l.sum, ⟨2, 1, 2, [[]]⟩⟩ :
          Lsh Unit Int).index ⟨1, (), none⟩).1).2.banding_hashtable.hash_tables).getD 0 [])
    = some [⟨1, (), some [0, 1]⟩, ⟨1, (), some [0, 1]⟩] :=
  lsh_index_twice_duplicates
    (⟨2, 2, fun _ => [0, 1], fun l => l.sum, ⟨2, 1, 2, [[]]⟩⟩ : Lsh Unit Int)
    ⟨1, (), none⟩ rfl 0 (by decide)

/-- C10: `generate_signature`, `index` and `retrieve` change only the
`signature` field of the object (setting it to the hash of the feature);
`id` and `feature` are untouched, and the candidates `retrieve` returns all
come from buckets already present in the table — the query itself is never
stored by `retrieve`. -/
theorem lsh_operations_frame {φ σ : Type} (L : Lsh φ σ) (o : LshObject φ σ) :
    ((L.generate_signature o).id = o.id
      ∧ (L.generate_signature o).feature = o.feature
      ∧ (L.generate_signature o).signature = some (L.hasher o.feature))
    ∧ ((L.index o).1.id = o.id
      ∧ (L.index o).1.feature = o.feature
      ∧ (L.index o).1.signature = some (L.hasher o.feature))
    ∧ ((L.retrieve o).1.id = o.id
      ∧ (L.retrieve o).1.feature = o.feature
      ∧ (L.retrieve o).1.signature = some (L.hasher o.feature))
    ∧ (∀ x ∈ (L.retrieve o).2,
        ∃ i, i < (L.banding_hashtable.get_signature_segments
            (L.hasher o.feature)).length
          ∧ i < L.banding_hashtable.hash_tables.length
          ∧ ∃ bucket, bandGet (L.hk ((L.banding_hashtable.get_signature_segments
              (L.hasher o.feature)).getD i []))
              (L.banding_hashtable.hash_tables.getD i []) = some bucket
            ∧ x ∈ bucket) := by
  refine ⟨⟨rfl, rfl, rfl⟩, ⟨rfl, rfl, rfl⟩, ⟨rfl, rfl, rfl⟩, ?_⟩
  intro x hx
  exact getLoop_sound L.hk _ _ x (mem_of_mem_dedupById x hx)

/-- C10 witness: the three frame equalities of `retrieve` at a concrete
index and object. -/
theorem lsh_operations_frame_witness :
    ((⟨2, 2, fun _ => [0, 1], fun l => l.sum, ⟨2, 1, 2, [[]]⟩⟩ :
        Lsh Unit Int).retrieve ⟨1, (), none⟩).1.id = 1
    ∧ ((⟨2, 2, fun _ => [0, 1], fun l => l.sum, ⟨2, 1, 2, [[]]⟩⟩ :
        Lsh Unit Int).retrieve ⟨1, (), none⟩).1.feature = ()
    ∧ ((⟨2, 2, fun _ => [0, 1], fun l => l.sum, ⟨2, 1, 2, [[]]⟩⟩ :
        Lsh Unit Int).retrieve ⟨1, (), none⟩).1.signature = some [0, 1] :=
  (lsh_operations_frame
    (⟨2, 2, fun _ => [0, 1], fun l => l.sum, ⟨2, 1, 2, [[]]⟩⟩ : Lsh Unit Int)
    ⟨1, (), none⟩).2.2.1

/-- The positions where a feature vector has value 1, as the spec words it:
indices `i` of the vector with `feature[i] = 1`. -/
def specOnePositions (feature : List Int) : List Nat :=
  (List.range feature.length).filter (fun i => feature.getD i 0 == 1)

theorem enumFrom_ones_positions (f : List Int) (n : Nat) :
    ((List.enumFrom n f).filter (fun p => p.2 == 1)).map Prod.fst =
      ((List.range f.length).filter (fun i => f.getD i 0 == 1)).map (· + n) := by
  induction f generalizing n with
  | nil => simp
  | cons x xs ih =>
    have hstep : List.enumFrom n (x :: xs) = (n, x) :: List.enumFrom (n + 1) xs := rfl
    rw [hstep, List.length_cons, List.range_succ_eq_map, List.filter_cons,
      List.filter_cons]
    have hmapfilter :
        List.filter (fun i => (x :: xs).getD i 0 == 1) ((List.range xs.length).map Nat.succ)
          = ((List.range xs.length).filter (fun i => xs.getD i 0 == 1)).map Nat.succ := by
      rw [List.filter_map]
      congr 1
    have hfun : ((fun x => x + n) ∘ Nat.succ) = (fun i => i + (n + 1)) := by
      funext i
      simp only [Function.comp_apply, Nat.succ_eq_add_one]
      omega
    by_cases hx : (x == 1) = true
    · simp only [List.getD_cons_zero, hx, if_true, List.map_cons, hmapfilter, ih,
        List.map_map, hfun, Nat.zero_add]
    · simp only [List.getD_cons_zero, hx, Bool.false_eq_true, if_false, hmapfilter,
        ih, List.map_map, hfun]

theorem enum_ones_positions (f : List Int) :
    (f.enum.filter (fun p => p.2 == 1)).map Prod.fst = specOnePositions f := by
  have h := enumFrom_ones_positions f 0
  simpa [specOnePositions, List.enum] using h

theorem foldl_min_comm (a b : Int) (l : List Int) :
    min a (l.foldl min b) = l.foldl min (min a b) := by
  induction l generalizing b with
  | nil => simp
  | cons c cs ih =>
    simp only [List.foldl_cons]
    rw [ih (min b c), min_assoc]

theorem minimum_eq_foldl (v : Int) (vs : List Int) :
    (v :: vs).minimum = ((vs.foldl min v : Int) : WithTop Int) := by
  induction vs generalizing v with
  | nil => simp [List.minimum_cons]
  | cons w ws ih =>
    rw [List.minimum_cons, ih w, ← WithTop.coe_min, List.foldl_cons,
      foldl_min_comm v w ws]

/-- C7: the `k`-th element of a MinHash signature (for `k < sig_dim`) is the
minimum of the position hashes seeded by `k` over the positions holding a 1,
and `⊤` (`float("inf")`) when the feature has no 1-entries. -/
theorem minHasher_hash_element (mmh : Nat → Nat → Int) (mh : MinHasher)
    (feature : List Int) (k : Nat) (hks : k < mh.sig_dim) :
    (MinHasher.hash mmh mh feature).getD k ⊤ =
      ((specOnePositions feature).map (fun pos => mmh pos k)).minimum
    ∧ (specOnePositions feature = [] →
        (MinHasher.hash mmh mh feature).getD k ⊤ = ⊤) := by
  have hlen : k < (MinHasher.hash mmh mh feature).length := by
    simpa [MinHasher.hash] using hks
  have helem : (MinHasher.hash mmh mh feature).getD k ⊤ =
      MinHasher.hashAt mmh feature k := by
    rw [List.getD_eq_getElem _ _ hlen]
    simp [MinHasher.hash]
  have hlist : (feature.enum.filter (fun p => p.2 == 1)).map (fun p => mmh p.1 k)
      = (specOnePositions feature).map (fun pos => mmh pos k) := by
    have : (fun p : Nat × Int => mmh p.1 k) = (fun pos => mmh pos k) ∘ Prod.fst := rfl
    rw [this, ← List.map_map, enum_ones_positions]
  have hmain : MinHasher.hashAt mmh feature k =
      ((specOnePositions feature).map (fun pos => mmh pos k)).minimum := by
    unfold MinHasher.hashAt
    rw [hlist]
    rcases hc : (specOnePositions feature).map (fun pos => mmh pos k) with _ | ⟨v, vs⟩
    · simp [List.minimum_nil]
    · simp [minimum_eq_foldl]
  refine ⟨helem.trans hmain, fun hnil => ?_⟩
  rw [helem, hmain, hnil]
  simp [List.minimum_nil]

/-- C7 witness: feature `[0, 1, 1]`, seed `k = 1`, with a concrete position
hash. -/
theorem minHasher_hash_element_witness :
    ((MinHasher.hash (fun pos k => (pos : Int) - k) ⟨3, 2⟩ [0, 1, 1]).getD 1 ⊤ =
      ((specOnePositions [0, 1, 1]).map
        (fun pos => ((pos : Int) - 1 : Int))).minimum)
    ∧ (specOnePositions [0, 1, 1] = [] →
        (MinHasher.hash (fun pos k => (pos : Int) - k) ⟨3, 2⟩ [0, 1, 1]).getD 1 ⊤ = ⊤) :=
  minHasher_hash_element (fun pos k => (pos : Int) - k) ⟨3, 2⟩ [0, 1, 1] 1
    (by decide)

/-- C8: for a feature of the configured dimension, the projection hash is one
bit per hyperplane, set exactly when the dot product with that hyperplane is
strictly positive (so 0 when the dot product is zero). -/
theorem randomProjectionHasher_hash_bits (h : RandomProjectionHasher)
    (feature : List ℚ) (hlen : feature.length = h.feat_dim)
    (hplanes : h.planes.length = h.sig_dim) :
    ∃ bits, h.hash feature = some bits ∧ bits.length = h.sig_dim ∧
      ∀ i, i < bits.length →
        (bits.getD i false = true ↔ 0 < dotQ (h.planes.getD i []) feature) := by
  refine ⟨h.planes.map (fun p => decide (0 < dotQ p feature)), ?_, ?_, ?_⟩
  · simp [RandomProjectionHasher.hash, hlen]
  · simp [hplanes]
  · intro i hi
    have hi' : i < h.planes.length := by simpa using hi
    rw [List.getD_eq_getElem _ _ hi, List.getElem_map,
      List.getD_eq_getElem _ _ hi']
    exact decide_eq_true_iff

/-- C8 witness: two hyperplanes `[1]` and `[-1]` in dimension 1, feature
`[3]`. -/
theorem randomProjectionHasher_hash_bits_witness :
    ∃ bits, (⟨1, 2, [[1], [-1]]⟩ : RandomProjectionHasher).hash [3] = some bits
      ∧ bits.length = 2
      ∧ ∀ i, i < bits.length →
        (bits.getD i false = true ↔
          0 < dotQ ((⟨1, 2, [[1], [-1]]⟩ :
            RandomProjectionHasher).planes.getD i []) [3]) :=
  randomProjectionHasher_hash_bits ⟨1, 2, [[1], [-1]]⟩ [3] rfl rfl

/-- C2 (amended): `RandomProjectionHasher.hash` fails with the shape-mismatch
error exactly when the feature length differs from `feat_dim`, but
`MinHasher.hash` performs no dimension check at all: it returns a full
`sig_dim`-length signature for a feature of any length. -/
theorem hash_dimension_check :
    (∀ (h : RandomProjectionHasher) (feature : List ℚ),
      feature.length ≠ h.feat_dim → h.hash feature = none)
    ∧ (∀ (h : RandomProjectionHasher) (feature : List ℚ),
      feature.length = h.feat_dim → (h.hash feature).isSome = true)
    ∧ (∀ (mmh : Nat → Nat → Int) (h : MinHasher) (feature : List Int),
      (MinHasher.hash mmh h feature).length = h.sig_dim) := by
  refine ⟨?_, ?_, ?_⟩
  · intro h feature hne
    simp [RandomProjectionHasher.hash, hne]
  · intro h feature he
    simp [RandomProjectionHasher.hash, he]
  · intro mmh h feature
    simp [MinHasher.hash]

/-- C2 witness: a projection hasher over one plane rejects a length-2
feature. -/
theorem hash_dimension_check_witness :
    (⟨1, 1, [[1]]⟩ : RandomProjectionHasher).hash [1, 2] = none :=
  hash_dimension_check.1 ⟨1, 1, [[1]]⟩ [1, 2] (by decide)

/-- C2 counterexample: `MinHasher.hash` does not fail on a dimension
mismatch — with `feat_dim = 3` it happily returns the 2-element signature of
the length-2 feature `[1, 1]`. -/
theorem minHasher_no_dimension_check :
    ([1, 1] : List Int).length ≠ 3
    ∧ MinHasher.hash (fun pos k => (pos : Int) + k) ⟨3, 2⟩ [1, 1]
        = [((0 : Int) : WithTop Int), ((1 : Int) : WithTop Int)] := by
  exact ⟨by decide, by decide⟩

/-- A binary (boolean 0/1) vector, as required by the spec for Jaccard. -/
def specBinary (v : List Int) : Prop := ∀ x ∈ v, x = 0 ∨ x = 1

/-- Intersection size `|A ∩ B|`: the number of positions where both vectors hold a 1. -/
def interCount (v1 v2 : List Int) : Nat :=
  (List.zipWith (fun a b => decide (a = 1 ∧ b = 1)) v1 v2).count true

/-- Union size `|A ∪ B|`: the number of positions where at least one vector holds a 1. -/
def unionCount (v1 v2 : List Int) : Nat :=
  (List.zipWith (fun a b => decide (a = 1 ∨ b = 1)) v1 v2).count true

theorem binary_lor_eval (a b : Int) (ha : a = 0 ∨ a = 1) (hb : b = 0 ∨ b = 1) :
    Int.lor a b = if a = 1 ∨ b = 1 then 1 else 0 := by
  rcases ha with rfl | rfl <;> rcases hb with rfl | rfl <;> decide

theorem binary_land_eval (a b : Int) (ha : a = 0 ∨ a = 1) (hb : b = 0 ∨ b = 1) :
    Int.land a b = if a = 1 ∧ b = 1 then 1 else 0 := by
  rcases ha with rfl | rfl <;> rcases hb with rfl | rfl <;> decide

theorem lor_sum_eq_unionCount (v1 : List Int) : ∀ v2 : List Int, specBinary v1 →
    specBinary v2 → (List.zipWith Int.lor v1 v2).sum = (unionCount v1 v2 : Int) := by
  induction v1 with
  | nil => intro v2 _ _; simp [unionCount]
  | cons a as ih =>
    intro v2 h1 h2
    cases v2 with
    | nil => simp [unionCount]
    | cons b bs =>
      have ha := h1 a (List.mem_cons_self a as)
      have hb := h2 b (List.mem_cons_self b bs)
      have h1' : specBinary as := fun x hx => h1 x (List.mem_cons_of_mem _ hx)
      have h2' : specBinary bs := fun x hx => h2 x (List.mem_cons_of_mem _ hx)
      have hrec := ih bs h1' h2'
      by_cases hc : a = 1 ∨ b = 1
      · have hl : Int.lor a b = 1 := by rw [binary_lor_eval a b ha hb, if_pos hc]
        have hcount : unionCount (a :: as) (b :: bs) = unionCount as bs + 1 := by
          simp [unionCount, List.count_cons, hc]
        simp only [List.zipWith_cons_cons, List.sum_cons, hl, hcount, hrec]
        push_cast
        ring
      · have hl : Int.lor a b = 0 := by rw [binary_lor_eval a b ha hb, if_neg hc]
        have hcount : unionCount (a :: as) (b :: bs) = unionCount as bs := by
          simp [unionCount, List.count_cons, hc]
        simp only [List.zipWith_cons_cons, List.sum_cons, hl, hcount, hrec]
        ring

theorem land_sum_eq_interCount (v1 : List Int) : ∀ v2 : List Int, specBinary v1 →
    specBinary v2 → (List.zipWith Int.land v1 v2).sum = (interCount v1 v2 : Int) := by
  induction v1 with
  | nil => intro v2 _ _; simp [interCount]
  | cons a as ih =>
    intro v2 h1 h2
    cases v2 with
    | nil => simp [interCount]
    | cons b bs =>
      have ha := h1 a (List.mem_cons_self a as)
      have hb := h2 b (List.mem_cons_self b bs)
      have h1' : specBinary as := fun x hx => h1 x (List.mem_cons_of_mem _ hx)
      have h2' : specBinary bs := fun x hx => h2 x (List.mem_cons_of_mem _ hx)
      have hrec := ih bs h1' h2'
      by_cases hc : a = 1 ∧ b = 1
      · have hl : Int.land a b = 1 := by rw [binary_land_eval a b ha hb, if_pos hc]
        have hcount : interCount (a :: as) (b :: bs) = interCount as bs + 1 := by
          simp [interCount, List.count_cons, hc]
        simp only [List.zipWith_cons_cons, List.sum_cons, hl, hcount, hrec]
        push_cast
        ring
      · have hl : Int.land a b = 0 := by rw [binary_land_eval a b ha hb, if_neg hc]
        have hcount : interCount (a :: as) (b :: bs) = interCount as bs := by
          simp [interCount, List.count_cons, hc]
        simp only [List.zipWith_cons_cons, List.sum_cons, hl, hcount, hrec]
        ring

theorem unionCount_comm (v1 : List Int) : ∀ v2 : List Int,
    unionCount v1 v2 = unionCount v2 v1 := by
  induction v1 with
  | nil => intro v2; cases v2 <;> simp [unionCount]
  | cons a as ih =>
    intro v2
    cases v2 with
    | nil => simp [unionCount]
    | cons b bs =>
      have hd : decide (a = 1 ∨ b = 1) = decide (b = 1 ∨ a = 1) :=
        decide_eq_decide.mpr or_comm
      have htail := ih bs
      simp only [unionCount, List.zipWith_cons_cons, List.count_cons] at htail ⊢
      rw [htail, hd]

theorem interCount_comm (v1 : List Int) : ∀ v2 : List Int,
    interCount v1 v2 = interCount v2 v1 := by
  induction v1 with
  | nil => intro v2; cases v2 <;> simp [interCount]
  | cons a as ih =>
    intro v2
    cases v2 with
    | nil => simp [interCount]
    | cons b bs =>
      have hd : decide (a = 1 ∧ b = 1) = decide (b = 1 ∧ a = 1) :=
        decide_eq_decide.mpr and_comm
      have htail := ih bs
      simp only [interCount, List.zipWith_cons_cons, List.count_cons] at htail ⊢
      rw [htail, hd]

theorem binary_sum_nonneg (v : List Int) (hv : specBinary v) : 0 ≤ v.sum :=
  List.sum_nonneg (fun x hx => by rcases hv x hx with rfl | rfl <;> norm_num)

theorem binary_sum_pos (v : List Int) (hv : specBinary v)
    (h : ∃ x ∈ v, x = 1) : 0 < v.sum := by
  induction v with
  | nil => simp at h
  | cons a as ih =>
    have ha := hv a (List.mem_cons_self a as)
    have hv' : specBinary as := fun x hx => hv x (List.mem_cons_of_mem _ hx)
    rcases ha with rfl | rfl
    · obtain ⟨x, hx, rfl⟩ := h
      rcases List.mem_cons.mp hx with h0 | hmem
      · exact absurd h0 (by norm_num)
      · have := ih hv' ⟨1, hmem, rfl⟩
        simpa using this
    · have := binary_sum_nonneg as hv'
      simp only [List.sum_cons]
      omega

theorem zipWith_lor_self (v : List Int) (hv : specBinary v) :
    List.zipWith Int.lor v v = v := by
  induction v with
  | nil => rfl
  | cons a as ih =>
    have ha := hv a (List.mem_cons_self a as)
    have hv' : specBinary as := fun x hx => hv x (List.mem_cons_of_mem _ hx)
    have hself : Int.lor a a = a := by rcases ha with rfl | rfl <;> decide
    show Int.lor a a :: List.zipWith Int.lor as as = a :: as
    rw [hself, ih hv']

theorem zipWith_land_self (v : List Int) (hv : specBinary v) :
    List.zipWith Int.land v v = v := by
  induction v with
  | nil => rfl
  | cons a as ih =>
    have ha := hv a (List.mem_cons_self a as)
    have hv' : specBinary as := fun x hx => hv x (List.mem_cons_of_mem _ hx)
    have hself : Int.land a a = a := by rcases ha with rfl | rfl <;> decide
    show Int.land a a :: List.zipWith Int.land as as = a :: as
    rw [hself, ih hv']

/-- C9: for equal-length binary vectors, Jaccard `compute_similarity` is
`|A ∩ B| / |A ∪ B|` with value 0 when the union is empty; it is symmetric,
and equals 1 on a non-zero vector paired with itself. -/
theorem jaccard_compute_similarity_spec (v1 v2 : List Int)
    (_hlen : v1.length = v2.length) (h1 : specBinary v1) (h2 : specBinary v2) :
    (JaccardSimilarity.compute_similarity v1 v2 =
      if unionCount v1 v2 = 0 then 0
      else (interCount v1 v2 : ℚ) / (unionCount v1 v2 : ℚ))
    ∧ JaccardSimilarity.compute_similarity v1 v2
        = JaccardSimilarity.compute_similarity v2 v1
    ∧ (v1 = v2 → (∃ x ∈ v1, x = 1) →
        JaccardSimilarity.compute_similarity v1 v2 = 1) := by
  have hA : ∀ (w1 w2 : List Int), specBinary w1 → specBinary w2 →
      JaccardSimilarity.compute_similarity w1 w2 =
        if unionCount w1 w2 = 0 then 0
        else (interCount w1 w2 : ℚ) / (unionCount w1 w2 : ℚ) := by
    intro w1 w2 hw1 hw2
    simp only [JaccardSimilarity.compute_similarity,
      lor_sum_eq_unionCount w1 w2 hw1 hw2, land_sum_eq_interCount w1 w2 hw1 hw2,
      Int.natCast_eq_zero]
    split_ifs with h
    · rfl
    · push_cast
      rfl
  refine ⟨hA v1 v2 h1 h2, ?_, ?_⟩
  · rw [hA v1 v2 h1 h2, hA v2 v1 h2 h1, unionCount_comm v1 v2, interCount_comm v1 v2]
  · rintro rfl hex
    have hsum : 0 < v1.sum := binary_sum_pos v1 h1 hex
    simp only [JaccardSimilarity.compute_similarity, zipWith_lor_self v1 h1,
      zipWith_land_self v1 h1]
    rw [if_neg (by omega : ¬ v1.sum = 0)]
    exact div_self (by exact_mod_cast (by omega : v1.sum ≠ 0))

/-- C9 witness: `A = [1, 0]`, `B = [1, 1]`. -/
theorem jaccard_compute_similarity_spec_witness :
    (JaccardSimilarity.compute_similarity [1, 0] [1, 1] =
      if unionCount [1, 0] [1, 1] = 0 then 0
      else (interCount [1, 0] [1, 1] : ℚ) / (unionCount [1, 0] [1, 1] : ℚ))
    ∧ JaccardSimilarity.compute_similarity [1, 0] [1, 1]
        = JaccardSimilarity.compute_similarity [1, 1] [1, 0]
    ∧ (([1, 0] : List Int) = [1, 1] → (∃ x ∈ ([1, 0] : List Int), x = 1) →
        JaccardSimilarity.compute_similarity [1, 0] [1, 1] = 1) :=
  jaccard_compute_similarity_spec [1, 0] [1, 1] rfl
    (by unfold specBinary; decide) (by unfold specBinary; decide)

theorem sumSq_nonneg (xs : List ℝ) : 0 ≤ sumSq xs :=
  List.sum_nonneg (fun x hx => by
    obtain ⟨a, _, rfl⟩ := List.mem_map.mp hx
    positivity)

theorem normR_nonneg (xs : List ℝ) : 0 ≤ normR xs := Real.sqrt_nonneg _

theorem cs_step (a b d X Y : ℝ) (hX : 0 ≤ X) (hY : 0 ≤ Y) (h : d ^ 2 ≤ X * Y) :
    (a * b + d) ^ 2 ≤ (a ^ 2 + X) * (b ^ 2 + Y) := by
  rcases eq_or_lt_of_le hY with hY0 | hYpos
  · have hY0' : Y = 0 := hY0.symm
    subst hY0'
    have hd2 : d ^ 2 ≤ 0 := by nlinarith
    have hd : d = 0 := by nlinarith [sq_nonneg d]
    subst hd
    nlinarith [mul_nonneg hX (sq_nonneg b)]
  · nlinarith [sq_nonneg (a * Y - b * d),
      mul_nonneg (add_nonneg (sq_nonneg b) hY) (sub_nonneg.mpr h)]

theorem dotR_sq_le (xs : List ℝ) : ∀ ys : List ℝ,
    (dotR xs ys) ^ 2 ≤ sumSq xs * sumSq ys := by
  induction xs with
  | nil => intro ys; simp [dotR, sumSq]
  | cons x xs ih =>
    intro ys
    cases ys with
    | nil => simp [dotR, sumSq]
    | cons y ys =>
      have h := ih ys
      have h1 := sumSq_nonneg xs
      have h2 := sumSq_nonneg ys
      simp only [dotR, sumSq, List.zipWith_cons_cons, List.sum_cons, List.map_cons]
      exact cs_step x y _ _ _ h1 h2 h

theorem abs_dotR_le (v1 v2 : List ℝ) : |dotR v1 v2| ≤ normR v1 * normR v2 := by
  have h := dotR_sq_le v1 v2
  have h1 := sumSq_nonneg v1
  calc |dotR v1 v2| = Real.sqrt ((dotR v1 v2) ^ 2) := (Real.sqrt_sq_eq_abs _).symm
    _ ≤ Real.sqrt (sumSq v1 * sumSq v2) := Real.sqrt_le_sqrt h
    _ = normR v1 * normR v2 := by rw [normR, normR, ← Real.sqrt_mul h1]

/-- C3 (amended): cosine `compute_similarity` of equal-length vectors lies in
`[-1, 1]` (it can be negative, so not `[0, 1]`), is 0 whenever either vector
has zero norm, and otherwise equals `dot / (‖A‖ * ‖B‖)`. -/
theorem cosine_compute_similarity_spec (v1 v2 : List ℝ)
    (_hlen : v1.length = v2.length) :
    (-1 ≤ CosineSimilarity.compute_similarity v1 v2
      ∧ CosineSimilarity.compute_similarity v1 v2 ≤ 1)
    ∧ ((normR v1 = 0 ∨ normR v2 = 0) →
        CosineSimilarity.compute_similarity v1 v2 = 0)
    ∧ (normR v1 ≠ 0 → normR v2 ≠ 0 →
        CosineSimilarity.compute_similarity v1 v2
          = dotR v1 v2 / (normR v1 * normR v2)) := by
  unfold CosineSimilarity.compute_similarity
  by_cases h : normR v1 = 0 ∨ normR v2 = 0
  · rw [if_pos h]
    exact ⟨⟨by norm_num, by norm_num⟩, fun _ => rfl,
      fun h1 h2 => absurd h (not_or.mpr ⟨h1, h2⟩)⟩
  · rw [if_neg h]
    push_neg at h
    obtain ⟨h1, h2⟩ := h
    have hn1 : 0 < normR v1 := lt_of_le_of_ne (normR_nonneg v1) (Ne.symm h1)
    have hn2 : 0 < normR v2 := lt_of_le_of_ne (normR_nonneg v2) (Ne.symm h2)
    have hpos : 0 < normR v1 * normR v2 := mul_pos hn1 hn2
    have hb : |dotR v1 v2 / (normR v1 * normR v2)| ≤ 1 := by
      rw [abs_div, abs_of_pos hpos]
      exact (div_le_one hpos).mpr (abs_dotR_le v1 v2)
    exact ⟨abs_le.mp hb, fun hc => absurd hc (not_or.mpr ⟨h1, h2⟩),
      fun _ _ => rfl⟩

/-- C3 witness: `A = [1, 0]`, `B = [0, 1]`. -/
theorem cosine_compute_similarity_spec_witness :
    (-1 ≤ CosineSimilarity.compute_similarity [1, 0] [0, 1]
      ∧ CosineSimilarity.compute_similarity [1, 0] [0, 1] ≤ 1)
    ∧ ((normR [1, 0] = 0 ∨ normR [0, 1] = 0) →
        CosineSimilarity.compute_similarity [1, 0] [0, 1] = 0)
    ∧ (normR [1, 0] ≠ 0 → normR [0, 1] ≠ 0 →
        CosineSimilarity.compute_similarity [1, 0] [0, 1]
          = dotR [1, 0] [0, 1] / (normR [1, 0] * normR [0, 1])) :=
  cosine_compute_similarity_spec [1, 0] [0, 1] rfl

/-- C3 counterexample: the cosine similarity of `[1]` and `[-1]` is `-1`,
outside the `[0, 1]` range the claim states. -/
theorem cosine_similarity_negative :
    CosineSimilarity.compute_similarity [1] [-1] = -1
    ∧ CosineSimilarity.compute_similarity [1] [-1] < 0 := by
  have hs1 : sumSq [1] = 1 := by norm_num [sumSq]
  have hs2 : sumSq [-1] = 1 := by norm_num [sumSq]
  have hnorm1 : normR [1] = 1 := by rw [normR, hs1, Real.sqrt_one]
  have hnorm2 : normR [-1] = 1 := by rw [normR, hs2, Real.sqrt_one]
  have hdot : dotR [1] [-1] = -1 := by norm_num [dotR]
  have hval : CosineSimilarity.compute_similarity [1] [-1] = -1 := by
    unfold CosineSimilarity.compute_similarity
    rw [hnorm1, hnorm2, if_neg (by norm_num), hdot]
    norm_num
  exact ⟨hval, by rw [hval]; norm_num⟩
